import Mathlib

/-!
Verification of the jon-make core: target registration, dependency
resolution and sequential execution, shallowly embedded from `src/cli.js`
(the `target`, `pick_target_and_dependencies` and `evaluate` functions of
the Target module, plus the registry object `all_targets`).

Modelling conventions:
* The process-wide registry `all_targets` (a JS object keyed by target
  name, insertion ordered) is an association list of `Target` records kept
  in declaration order; `all_targets[name]` is `lookupTarget`,
  `all_targets[rtn.name] = rtn` is `setTarget` (replace in place when the
  key exists, append otherwise).
* The JS `Set` `picked` is a duplicate-free `List String` (elements are
  only inserted after a membership test, as in the source).
* The recursive resolver `pick_target_and_dependencies` terminates because
  `picked` only grows inside the fixed registry; in Lean this is made
  structural with a fuel argument consumed on every call.  `pickBound`
  is proved sufficient (`pick_error_unknown`), so the fuel value used by
  `evaluateResolve` never alters observable behaviour.
* The process working directory is a list of path segments; `chdir` with
  the relative `target_path` appends to the current directory, which is
  all the working-directory claims depend on.
* A target's `action` is an arbitrary zero-argument JS operation; the
  executor claims only depend on how it settles, so it is modelled by its
  observable behaviour: synchronous normal return / synchronous throw /
  asynchronous rejection.  (`Promise.resolve(target.action())` makes a
  successful synchronous return and a resolved promise indistinguishable.)
-/

namespace JonMake

/-- Execution options of a target; `src/cli.js` reads `target_path` in the
executor and `interactive` only in the excluded UI layer. -/
structure TargetOptions where
  target_path : Option (List String)
  interactive : Option Bool
deriving DecidableEq, Repr

/-- Observable behaviour of a target's zero-argument action. -/
inductive ActionBehavior where
  | ok
  | throwSync (e : String)
  | rejectAsync (e : String)
deriving DecidableEq, Repr

/-- The `rtn` record built by the `target` function: `{ name, depends,
action, options }`. -/
structure Target where
  name : String
  depends : List String
  action : ActionBehavior
  options : TargetOptions
deriving DecidableEq, Repr

/-- The `all_targets` object: targets keyed by name in declaration order. -/
abbrev Registry := List Target

/-- `all_targets[n]`: JS object property read. -/
def lookupTarget (reg : Registry) (n : String) : Option Target :=
  reg.find? (fun t => t.name == n)

/-- `all_targets[rtn.name] = rtn`: JS object property write.  An existing
key keeps its position and gets the new value; a new key is appended. -/
def setTarget (reg : Registry) (t : Target) : Registry :=
  if reg.any (fun u => u.name == t.name) then
    reg.map (fun u => if u.name == t.name then t else u)
  else
    reg ++ [t]

/-- Argument object of the `target` function; `none` fields are absent
properties, filled by the destructuring defaults
`depends = []`, `options = {}`, `action = function() {}`. -/
structure TargetSpec where
  name : String
  depends : Option (List String)
  options : Option TargetOptions
  action : Option ActionBehavior
deriving DecidableEq, Repr

/-- The default `options = {}` object. -/
def defaultOptions : TargetOptions := ⟨none, none⟩

/-- The record `{ name, depends, action, options }` built by `target` after
applying the destructuring defaults. -/
def buildTarget (s : TargetSpec) : Target :=
  ⟨s.name, s.depends.getD [], s.action.getD ActionBehavior.ok,
    s.options.getD defaultOptions⟩

/-- The `target` function of `src/cli.js`: builds `rtn`, stores it under
`rtn.name` in `all_targets`, returns it. -/
def target (reg : Registry) (s : TargetSpec) : Registry × Target :=
  let rtn := buildTarget s
  (setTarget reg rtn, rtn)

/-- Error message thrown by `pick_target_and_dependencies` for a name
absent from the registry: `don't know how to build ${target_name}`. -/
def unknownMsg (n : String) : String := "don\x27t know how to build " ++ n

/-- Error reserved for fuel exhaustion; `pickManyFuel_no_fuel_error` shows
it cannot occur at the fuel value `evaluateResolve` uses. -/
def fuelMsg : String := "pick fuel exhausted"

/-- `pick_target_and_dependencies` folded over a worklist of names, as the
`selected.forEach` loop of `evaluate` runs it: for each name, if
unregistered throw `unknownMsg`; if already picked contribute nothing;
otherwise mark it picked, recurse over its `depends` in order, then emit
the target itself.  The accumulated list and the `picked` set are threaded
exactly as the JS mutation does.  Fuel is consumed on every call. -/
def pickManyFuel (reg : Registry) : Nat → List String → List String →
    Except String (List Target × List String)
  | 0, _, _ => Except.error fuelMsg
  | _ + 1, [], picked => Except.ok ([], picked)
  | n + 1, target_name :: rest, picked =>
    match lookupTarget reg target_name with
    | none => Except.error (unknownMsg target_name)
    | some t =>
      if target_name ∈ picked then
        pickManyFuel reg n rest picked
      else
        match pickManyFuel reg n t.depends (picked ++ [target_name]) with
        | Except.error e => Except.error e
        | Except.ok (l1, p1) =>
          match pickManyFuel reg n rest p1 with
          | Except.error e => Except.error e
          | Except.ok (l2, p2) => Except.ok (l1 ++ t :: l2, p2)

/-- Largest `depends` length over the registry, used for the fuel bound. -/
def maxDeps (reg : Registry) : Nat :=
  reg.foldr (fun t m => max t.depends.length m) 0

/-- Number of registry entries whose name is not yet picked. -/
def unpickedCount (reg : Registry) (picked : List String) : Nat :=
  (reg.filter (fun t => decide (t.name ∉ picked))).length

/-- Fuel sufficient to run `pickManyFuel` to completion. -/
def pickBound (reg : Registry) (worklist : List String)
    (picked : List String) : Nat :=
  unpickedCount reg picked * (maxDeps reg + 1) + worklist.length + 1

/-- The root-selection step of `evaluate` (lines 126-129 of the source):
registry keys, in declaration order, kept when no names were requested or
when the key occurs among the requested names. -/
def selectedRoots (reg : Registry) (target_names : List String) :
    List String :=
  (reg.map (fun t => t.name)).filter
    (fun k => target_names.isEmpty || target_names.contains k)

/-- The resolution phase of `evaluate`: build `selected`, then fold
`pick_target_and_dependencies` over it with one shared `picked` set,
accumulating `required`.  A thrown error rejects the whole call. -/
def evaluateResolve (reg : Registry) (target_names : List String) :
    Except String (List Target) :=
  match pickManyFuel reg
      (pickBound reg (selectedRoots reg target_names) [])
      (selectedRoots reg target_names) [] with
  | Except.error e => Except.error e
  | Except.ok (l, _) => Except.ok l

/-- Process-wide mutable state read or written by the executor: the
registry object and the working directory. -/
structure ExecState where
  reg : Registry
  cwd : List String
deriving DecidableEq, Repr

/-- Trace entry for one invoked action: the target's name and the working
directory in effect while the action ran. -/
structure ExecRecord where
  tname : String
  cwdDuring : List String
deriving DecidableEq, Repr

/-- Settlement of the promise chain. -/
inductive RunResult where
  | ok
  | err (e : String)
deriving DecidableEq, Repr

/-- `process.chdir` with a relative path resolves it against the current
working directory. -/
def chdirResolve (cwd : List String) (p : List String) : List String :=
  cwd ++ p

/-- One link of the task chain (lines 141-154 of the source): save
`current_dir`, switch to `target_path` when set, run the action, and on
the promise's resolution or rejection switch back.  A synchronous throw of
`target.action()` escapes before the `.then`/`.catch` handlers are
installed, so no switch-back runs on that path. -/
def runOne (t : Target) (st : ExecState) :
    ExecRecord × RunResult × ExecState :=
  let current_dir := st.cwd
  let cwdIn :=
    match t.options.target_path with
    | some p => chdirResolve st.cwd p
    | none => st.cwd
  match t.action with
  | ActionBehavior.ok =>
      (⟨t.name, cwdIn⟩, RunResult.ok, ⟨st.reg, current_dir⟩)
  | ActionBehavior.rejectAsync e =>
      (⟨t.name, cwdIn⟩, RunResult.err e, ⟨st.reg, current_dir⟩)
  | ActionBehavior.throwSync e =>
      (⟨t.name, cwdIn⟩, RunResult.err e, ⟨st.reg, cwdIn⟩)

/-- The sequential promise chain over `required` (lines 138-161): each
target runs only after the previous one settled successfully; the first
error short-circuits the rest and becomes the chain's result. -/
def runTargets : List Target → ExecState →
    List ExecRecord × RunResult × ExecState
  | [], st => ([], RunResult.ok, st)
  | t :: ts, st =>
    match runOne t st with
    | (r, RunResult.ok, st1) =>
      match runTargets ts st1 with
      | (rs, res, st2) => (r :: rs, res, st2)
    | (r, RunResult.err e, st1) => ([r], RunResult.err e, st1)

/-- The whole `evaluate` call: resolution, then the task chain.  An error
thrown during resolution rejects the promise before any chain link is
built, leaving the state untouched and the partial `required` list
unreachable. -/
def evaluateFull (reg : Registry) (target_names : List String)
    (cwd : List String) : List ExecRecord × RunResult × ExecState :=
  match evaluateResolve reg target_names with
  | Except.error e => ([], RunResult.err e, ⟨reg, cwd⟩)
  | Except.ok l => runTargets l ⟨reg, cwd⟩

/-- Dependency edge of the registry: `x` depends directly on `y`. -/
def depEdge (reg : Registry) (x y : String) : Prop :=
  ∃ t, lookupTarget reg x = some t ∧ y ∈ t.depends

/-- No dependency cycle among registered names. -/
def Acyclic (reg : Registry) : Prop :=
  ∀ x, ¬ Relation.TransGen (depEdge reg) x x

/-- The ordering property of a resolution result: every registered
dependency of an element occurs at a strictly smaller index. -/
def DepOrdered (reg : Registry) (l : List Target) : Prop :=
  ∀ (i : Nat) (t : Target), l[i]? = some t → ∀ d, d ∈ t.depends →
    ∀ dt, lookupTarget reg d = some dt → ∃ j, j < i ∧ l[j]? = some dt

/-- The error, if any, with which an action settles. -/
def actionErr : ActionBehavior → Option String
  | ActionBehavior.ok => none
  | ActionBehavior.throwSync e => some e
  | ActionBehavior.rejectAsync e => some e

/-- Registration argument with only `name` and `depends` present. -/
def tspec (n : String) (ds : List String) : TargetSpec :=
  ⟨n, some ds, none, none⟩

/-- Two-target cyclic registry `A ↔ B`, built through `target`. -/
def regC1 : Registry :=
  (target (target [] (tspec "A" ["B"])).1 (tspec "B" ["A"])).1

/-- The record registered for `A` in `regC1`. -/
def tgtA1 : Target := buildTarget (tspec "A" ["B"])

/-- The record registered for `B` in `regC1`. -/
def tgtB1 : Target := buildTarget (tspec "B" ["A"])

/-- Acyclic two-target registry used as a concrete witness. -/
def regW1 : Registry :=
  (target (target [] (tspec "WA" [])).1 (tspec "WB" ["WA"])).1

/-- One-target registry used against unknown root names. -/
def regC2 : Registry := (target [] (tspec "C2A" [])).1

/-- One-target witness registry for root-name filtering. -/
def regW2 : Registry := (target [] (tspec "W2A" [])).1

/-- Registry with a single target whose `target_path` is set and whose
action throws synchronously. -/
def regC3 : Registry :=
  (target []
    ⟨"T", some [], some ⟨some ["sub"], none⟩,
      some (ActionBehavior.throwSync "boom")⟩).1

/-- Witness registry for fail-fast: the first target's action is rejected,
a second registered target follows it. -/
def regW4 : Registry :=
  (target (target []
      ⟨"W4A", some [], none, some (ActionBehavior.rejectAsync "bang")⟩).1
    (tspec "W4B" ["W4A"])).1

/-- Witness registry with two roots sharing one dependency. -/
def regW5 : Registry :=
  (target (target (target [] (tspec "W5C" [])).1
      (tspec "W5A" ["W5C"])).1
    (tspec "W5B" ["W5C"])).1

/-- Witness registry whose only target lists an unregistered dependency. -/
def regW6 : Registry := (target [] (tspec "W6A" ["W6X"])).1

/-- Two-target cyclic registry `P ↔ Q`. -/
def regC7 : Registry :=
  (target (target [] (tspec "P" ["Q"])).1 (tspec "Q" ["P"])).1

/-- The record registered for `P` in `regC7`. -/
def tgtP7 : Target := buildTarget (tspec "P" ["Q"])

/-- The record registered for `Q` in `regC7`. -/
def tgtQ7 : Target := buildTarget (tspec "Q" ["P"])

/-- Closed acyclic witness registry for whole-registry evaluation. -/
def regW7 : Registry :=
  (target (target [] (tspec "W7A" [])).1 (tspec "W7B" ["W7A"])).1

/-- Three-target registry declared in the order `C8A`, `C8B`, `C8D`,
where only `C8B` has a dependency. -/
def regC8 : Registry :=
  (target (target (target [] (tspec "C8A" [])).1
      (tspec "C8B" ["C8D"])).1
    (tspec "C8D" [])).1

/-- Witness registry with two independent targets. -/
def regW8 : Registry :=
  (target (target [] (tspec "W8A" [])).1 (tspec "W8B" [])).1

/-- The record registered for `WA` in `regW1`. -/
def tgtWA : Target := buildTarget (tspec "WA" [])

/-- The record registered for `WB` in `regW1`. -/
def tgtWB : Target := buildTarget (tspec "WB" ["WA"])

/-- The record registered for `W4A` in `regW4`. -/
def tgtW4A : Target :=
  buildTarget ⟨"W4A", some [], none, some (ActionBehavior.rejectAsync "bang")⟩

/-- The record registered for `W4B` in `regW4`. -/
def tgtW4B : Target := buildTarget (tspec "W4B" ["W4A"])

/-- The record registered for `W5C` in `regW5`. -/
def tgtW5C : Target := buildTarget (tspec "W5C" [])

/-- The record registered for `W5A` in `regW5`. -/
def tgtW5A : Target := buildTarget (tspec "W5A" ["W5C"])

/-- The record registered for `W5B` in `regW5`. -/
def tgtW5B : Target := buildTarget (tspec "W5B" ["W5C"])

/-- The record registered for `C8A` in `regC8`. -/
def tgtA8 : Target := buildTarget (tspec "C8A" [])

/-- The record registered for `C8B` in `regC8`. -/
def tgtB8 : Target := buildTarget (tspec "C8B" ["C8D"])

/-- The record registered for `C8D` in `regC8`. -/
def tgtD8 : Target := buildTarget (tspec "C8D" [])


/-- A successful registry lookup returns a target carrying the looked-up
name. -/
theorem lookupTarget_name (reg : Registry) (n : String) (t : Target)
    (h : lookupTarget reg n = some t) : t.name = n := by
  have hfind := List.find?_some h
  simpa using hfind

/-- A successful registry lookup returns an entry of the registry. -/
theorem lookupTarget_mem (reg : Registry) (n : String) (t : Target)
    (h : lookupTarget reg n = some t) : t ∈ reg :=
  List.mem_of_find?_eq_some h

/-- Inversion of one successful step of the resolver. -/
theorem pick_ok_inv (reg : Registry) (n : Nat) (name : String)
    (rest p : List String) (l : List Target) (p' : List String)
    (h : pickManyFuel reg (n + 1) (name :: rest) p = Except.ok (l, p')) :
    ∃ t, lookupTarget reg name = some t ∧
      ((name ∈ p ∧ pickManyFuel reg n rest p = Except.ok (l, p')) ∨
       (name ∉ p ∧ ∃ l1 p1 l2,
         pickManyFuel reg n t.depends (p ++ [name]) = Except.ok (l1, p1) ∧
         pickManyFuel reg n rest p1 = Except.ok (l2, p') ∧
         l = l1 ++ t :: l2)) := by
  simp only [pickManyFuel] at h
  split at h
  · simp at h
  · next t hlook =>
    refine ⟨t, hlook, ?_⟩
    split at h
    · next hp => exact Or.inl ⟨hp, h⟩
    · next hp =>
      refine Or.inr ⟨hp, ?_⟩
      split at h
      · simp at h
      · next l1 p1 h1 =>
        split at h
        · simp at h
        · next l2 p2 h2 =>
          simp only [Except.ok.injEq, Prod.mk.injEq] at h
          obtain ⟨hl, hp2⟩ := h
          subst hl
          subst hp2
          exact ⟨l1, p1, l2, h1, h2, rfl⟩

/-- Inversion of one failing step of the resolver. -/
theorem pick_error_inv (reg : Registry) (n : Nat) (name : String)
    (rest p : List String) (e : String)
    (h : pickManyFuel reg (n + 1) (name :: rest) p = Except.error e) :
    (lookupTarget reg name = none ∧ e = unknownMsg name) ∨
    ∃ t, lookupTarget reg name = some t ∧
      ((name ∈ p ∧ pickManyFuel reg n rest p = Except.error e) ∨
       (name ∉ p ∧
         (pickManyFuel reg n t.depends (p ++ [name]) = Except.error e ∨
          ∃ l1 p1, pickManyFuel reg n t.depends (p ++ [name]) =
              Except.ok (l1, p1) ∧
            pickManyFuel reg n rest p1 = Except.error e))) := by
  simp only [pickManyFuel] at h
  split at h
  · next hlook =>
    simp only [Except.error.injEq] at h
    exact Or.inl ⟨hlook, h.symm⟩
  · next t hlook =>
    refine Or.inr ⟨t, hlook, ?_⟩
    split at h
    · next hp => exact Or.inl ⟨hp, h⟩
    · next hp =>
      refine Or.inr ⟨hp, ?_⟩
      split at h
      · next h1 =>
        simp only [Except.error.injEq] at h
        subst h
        exact Or.inl h1
      · next l1 p1 h1 =>
        split at h
        · next h2 =>
          simp only [Except.error.injEq] at h
          subst h
          exact Or.inr ⟨l1, p1, h1, h2⟩
        · simp at h
/-- Successful picking only ever adds names to the `picked` set. -/
theorem pick_subset (reg : Registry) :
    ∀ (n : Nat) (W p : List String) (l : List Target) (p' : List String),
      pickManyFuel reg n W p = Except.ok (l, p') → p ⊆ p' := by
  intro n
  induction n with
  | zero => intro W p l p' h; simp [pickManyFuel] at h
  | succ n ih =>
    intro W p l p' h
    cases W with
    | nil =>
      simp only [pickManyFuel, Except.ok.injEq, Prod.mk.injEq] at h
      obtain ⟨h1, h2⟩ := h
      subst h2
      exact List.Subset.refl p
    | cons name rest =>
      obtain ⟨t, hlook, hcase⟩ := pick_ok_inv reg n name rest p l p' h
      rcases hcase with ⟨hp, hrest⟩ | ⟨hp, l1, p1, l2, h1, h2, hl⟩
      · exact ih rest p l p' hrest
      · have s1 := ih t.depends (p ++ [name]) l1 p1 h1
        have s2 := ih rest p1 l2 p' h2
        intro x hx
        exact s2 (s1 (List.mem_append_left _ hx))

/-- The final `picked` set is, up to order, the initial one extended by
the names of the emitted targets. -/
theorem pick_perm (reg : Registry) :
    ∀ (n : Nat) (W p : List String) (l : List Target) (p' : List String),
      pickManyFuel reg n W p = Except.ok (l, p') →
      p'.Perm (p ++ l.map Target.name) := by
  intro n
  induction n with
  | zero => intro W p l p' h; simp [pickManyFuel] at h
  | succ n ih =>
    intro W p l p' h
    cases W with
    | nil =>
      simp only [pickManyFuel, Except.ok.injEq, Prod.mk.injEq] at h
      obtain ⟨h1, h2⟩ := h
      subst h2
      simp [← h1]
    | cons name rest =>
      obtain ⟨t, hlook, hcase⟩ := pick_ok_inv reg n name rest p l p' h
      rcases hcase with ⟨hp, hrest⟩ | ⟨hp, l1, p1, l2, h1, h2, hl⟩
      · exact ih rest p l p' hrest
      · have hq1 := ih t.depends (p ++ [name]) l1 p1 h1
        have hq2 := ih rest p1 l2 p' h2
        have hname := lookupTarget_name reg name t hlook
        subst hl
        subst hname
        have step1 : p'.Perm (((p ++ [t.name]) ++ l1.map Target.name)
            ++ l2.map Target.name) :=
          hq2.trans (hq1.append_right _)
        refine step1.trans ?_
        have step2 : (((p ++ [t.name]) ++ l1.map Target.name)
            ++ l2.map Target.name) =
            p ++ (t.name :: (l1.map Target.name ++ l2.map Target.name)) := by
          simp
        rw [step2]
        have step3 : (t.name :: (l1.map Target.name
            ++ l2.map Target.name)).Perm
            (l1.map Target.name ++ t.name :: l2.map Target.name) :=
          List.perm_middle.symm
        simpa using step3.append_left p

/-- Every emitted target is the registry entry stored under its name. -/
theorem pick_registered (reg : Registry) :
    ∀ (n : Nat) (W p : List String) (l : List Target) (p' : List String),
      pickManyFuel reg n W p = Except.ok (l, p') →
      ∀ t, t ∈ l → lookupTarget reg t.name = some t := by
  intro n
  induction n with
  | zero => intro W p l p' h; simp [pickManyFuel] at h
  | succ n ih =>
    intro W p l p' h
    cases W with
    | nil =>
      simp only [pickManyFuel, Except.ok.injEq, Prod.mk.injEq] at h
      obtain ⟨h1, h2⟩ := h
      intro t ht
      rw [← h1] at ht
      simp at ht
    | cons name rest =>
      obtain ⟨t, hlook, hcase⟩ := pick_ok_inv reg n name rest p l p' h
      rcases hcase with ⟨hp, hrest⟩ | ⟨hp, l1, p1, l2, h1, h2, hl⟩
      · exact ih rest p l p' hrest
      · subst hl
        intro u hu
        rcases List.mem_append.mp hu with hu1 | hu2
        · exact ih t.depends (p ++ [name]) l1 p1 h1 u hu1
        · rcases List.mem_cons.mp hu2 with rfl | hu3
          · rw [lookupTarget_name reg name u hlook]
            exact hlook
          · exact ih rest p1 l2 p' h2 u hu3

/-- Every worklist name of a successful pick ends up picked. -/
theorem pick_worklist_picked (reg : Registry) :
    ∀ (n : Nat) (W p : List String) (l : List Target) (p' : List String),
      pickManyFuel reg n W p = Except.ok (l, p') →
      ∀ w, w ∈ W → w ∈ p' := by
  intro n
  induction n with
  | zero => intro W p l p' h; simp [pickManyFuel] at h
  | succ n ih =>
    intro W p l p' h
    cases W with
    | nil => intro w hw; simp at hw
    | cons name rest =>
      obtain ⟨t, hlook, hcase⟩ := pick_ok_inv reg n name rest p l p' h
      rcases hcase with ⟨hp, hrest⟩ | ⟨hp, l1, p1, l2, h1, h2, hl⟩
      · intro w hw
        rcases List.mem_cons.mp hw with rfl | hw2
        · exact pick_subset reg n rest p l p' hrest hp
        · exact ih rest p l p' hrest w hw2
      · intro w hw
        rcases List.mem_cons.mp hw with rfl | hw2
        · have hw1 : w ∈ p ++ [w] := List.mem_append_right _ (by simp)
          exact pick_subset reg n rest p1 l2 p' h2
            (pick_subset reg n t.depends (p ++ [w]) l1 p1 h1 hw1)
        · exact ih rest p1 l2 p' h2 w hw2

/-- Every dependency of every emitted target ends up picked. -/
theorem pick_deps_picked (reg : Registry) :
    ∀ (n : Nat) (W p : List String) (l : List Target) (p' : List String),
      pickManyFuel reg n W p = Except.ok (l, p') →
      ∀ t, t ∈ l → ∀ d, d ∈ t.depends → d ∈ p' := by
  intro n
  induction n with
  | zero => intro W p l p' h; simp [pickManyFuel] at h
  | succ n ih =>
    intro W p l p' h
    cases W with
    | nil =>
      simp only [pickManyFuel, Except.ok.injEq, Prod.mk.injEq] at h
      obtain ⟨h1, h2⟩ := h
      intro t ht
      rw [← h1] at ht
      simp at ht
    | cons name rest =>
      obtain ⟨t, hlook, hcase⟩ := pick_ok_inv reg n name rest p l p' h
      rcases hcase with ⟨hp, hrest⟩ | ⟨hp, l1, p1, l2, h1, h2, hl⟩
      · exact ih rest p l p' hrest
      · subst hl
        intro u hu d hd
        rcases List.mem_append.mp hu with hu1 | hu2
        · exact pick_subset reg n rest p1 l2 p' h2
            (ih t.depends (p ++ [name]) l1 p1 h1 u hu1 d hd)
        · rcases List.mem_cons.mp hu2 with rfl | hu3
          · exact pick_subset reg n rest p1 l2 p' h2
              (pick_worklist_picked reg n u.depends (p ++ [name]) l1 p1 h1
                d hd)
          · exact ih rest p1 l2 p' h2 u hu3 d hd

/-- Picking keeps the `picked` set duplicate-free. -/
theorem pick_nodup (reg : Registry) :
    ∀ (n : Nat) (W p : List String) (l : List Target) (p' : List String),
      pickManyFuel reg n W p = Except.ok (l, p') →
      p.Nodup → p'.Nodup := by
  intro n
  induction n with
  | zero => intro W p l p' h; simp [pickManyFuel] at h
  | succ n ih =>
    intro W p l p' h hnd
    cases W with
    | nil =>
      simp only [pickManyFuel, Except.ok.injEq, Prod.mk.injEq] at h
      obtain ⟨h1, h2⟩ := h
      subst h2
      exact hnd
    | cons name rest =>
      obtain ⟨t, hlook, hcase⟩ := pick_ok_inv reg n name rest p l p' h
      rcases hcase with ⟨hp, hrest⟩ | ⟨hp, l1, p1, l2, h1, h2, hl⟩
      · exact ih rest p l p' hrest hnd
      · have hnd1 : (p ++ [name]).Nodup := by
          simp [List.nodup_append, hnd, hp]
        exact ih rest p1 l2 p' h2
          (ih t.depends (p ++ [name]) l1 p1 h1 hnd1)

/-- Filtering with a stronger predicate keeps at most as many elements. -/
theorem filter_length_mono {α : Type} (l : List α) (q r : α → Bool)
    (h : ∀ a, q a = true → r a = true) :
    (l.filter q).length ≤ (l.filter r).length :=
  (List.monotone_filter_right l h).length_le

/-- Growing the `picked` set cannot increase the unpicked count. -/
theorem unpickedCount_mono (reg : Registry) (p q : List String)
    (h : p ⊆ q) : unpickedCount reg q ≤ unpickedCount reg p := by
  refine filter_length_mono reg _ _ ?_
  intro t ht
  simp only [decide_eq_true_eq] at ht ⊢
  exact fun hm => ht (h hm)

/-- Picking a registered, not-yet-picked name strictly decreases the
unpicked count. -/
theorem unpickedCount_drop (reg : Registry) :
    ∀ (p : List String) (name : String), name ∉ p →
      (∃ t, t ∈ reg ∧ t.name = name) →
      unpickedCount reg (p ++ [name]) + 1 ≤ unpickedCount reg p := by
  induction reg with
  | nil =>
    intro p name hp h
    obtain ⟨t, ht, _⟩ := h
    simp at ht
  | cons u reg ih =>
    intro p name hp h
    by_cases hu : u.name = name
    · have h1 : (decide (u.name ∉ p)) = true := by simp [hu, hp]
      have h2 : (decide (u.name ∉ p ++ [name])) = false := by simp [hu]
      unfold unpickedCount
      simp only [List.filter_cons, h1, h2, Bool.false_eq_true, if_false,
        if_true, List.length_cons]
      have hmono := unpickedCount_mono reg p (p ++ [name])
        (fun x hx => List.mem_append_left _ hx)
      unfold unpickedCount at hmono
      omega
    · obtain ⟨t, ht, hname⟩ := h
      rcases List.mem_cons.mp ht with rfl | htr
      · exact absurd hname hu
      · have ihr := ih p name hp ⟨t, htr, hname⟩
        have hsame : (decide (u.name ∉ p ++ [name])) =
            (decide (u.name ∉ p)) := by
          by_cases hmp : u.name ∈ p
          · simp [hmp]
          · simp [hmp, hu]
        unfold unpickedCount
        unfold unpickedCount at ihr
        simp only [List.filter_cons, hsame]
        cases hdec : decide (u.name ∉ p)
        · simp only [Bool.false_eq_true, if_false]
          exact ihr
        · simp only [if_true, List.length_cons]
          omega

/-- Every registered target's dependency list is bounded by `maxDeps`. -/
theorem maxDeps_le (reg : Registry) :
    ∀ t, t ∈ reg → t.depends.length ≤ maxDeps reg := by
  induction reg with
  | nil => intro t ht; simp at ht
  | cons u reg ih =>
    intro t ht
    unfold maxDeps
    simp only [List.foldr_cons]
    rcases List.mem_cons.mp ht with rfl | htr
    · exact Nat.le_max_left _ _
    · have hr := ih t htr
      unfold maxDeps at hr
      exact hr.trans (Nat.le_max_right _ _)

/-- With fuel at least `pickBound`, the only failures of the resolver are
unknown-name errors, and the unknown name occurs in the worklist or in a
registered target's `depends`; in particular the fuel error never fires. -/
theorem pick_error_unknown (reg : Registry) :
    ∀ (n : Nat) (W p : List String) (e : String),
      pickBound reg W p ≤ n →
      pickManyFuel reg n W p = Except.error e →
      ∃ u, lookupTarget reg u = none ∧ e = unknownMsg u ∧
        (u ∈ W ∨ ∃ t, t ∈ reg ∧ u ∈ t.depends) := by
  intro n
  induction n with
  | zero =>
    intro W p e hb h
    unfold pickBound at hb
    omega
  | succ n ih =>
    intro W p e hb h
    cases W with
    | nil => simp [pickManyFuel] at h
    | cons name rest =>
      rcases pick_error_inv reg n name rest p e h with
        ⟨hlook, he⟩ | ⟨t, hlook, hcase⟩
      · exact ⟨name, hlook, he, Or.inl (List.mem_cons_self _ _)⟩
      · have hmem : t ∈ reg := lookupTarget_mem reg name t hlook
        have hname : t.name = name := lookupTarget_name reg name t hlook
        rcases hcase with ⟨hp, hrest⟩ | ⟨hp, hsub⟩
        · have hb' : pickBound reg rest p ≤ n := by
            unfold pickBound at hb ⊢
            simp only [List.length_cons] at hb
            omega
          obtain ⟨u, h1, h2, h3⟩ := ih rest p e hb' hrest
          exact ⟨u, h1, h2, h3.imp (List.mem_cons_of_mem _) id⟩
        · have hdrop := unpickedCount_drop reg p name hp ⟨t, hmem, hname⟩
          have hdeps := maxDeps_le reg t hmem
          have hmul : unpickedCount reg (p ++ [name]) * (maxDeps reg + 1)
              + (maxDeps reg + 1) ≤
              unpickedCount reg p * (maxDeps reg + 1) := by
            calc unpickedCount reg (p ++ [name]) * (maxDeps reg + 1)
                  + (maxDeps reg + 1)
                = (unpickedCount reg (p ++ [name]) + 1) *
                  (maxDeps reg + 1) := by ring
              _ ≤ unpickedCount reg p * (maxDeps reg + 1) :=
                  Nat.mul_le_mul_right _ hdrop
          rcases hsub with h1 | ⟨l1, p1, h1, h2⟩
          · have hb' : pickBound reg t.depends (p ++ [name]) ≤ n := by
              unfold pickBound at hb ⊢
              simp only [List.length_cons] at hb
              omega
            obtain ⟨u, hu1, hu2, hu3⟩ := ih t.depends (p ++ [name]) e hb' h1
            refine ⟨u, hu1, hu2, Or.inr ?_⟩
            rcases hu3 with hu4 | hu5
            · exact ⟨t, hmem, hu4⟩
            · exact hu5
          · have hsub1 : (p ++ [name]) ⊆ p1 :=
              pick_subset reg n t.depends (p ++ [name]) l1 p1 h1
            have hm1 : unpickedCount reg p1 ≤
                unpickedCount reg (p ++ [name]) :=
              unpickedCount_mono reg (p ++ [name]) p1 hsub1
            have hmul2 : unpickedCount reg p1 * (maxDeps reg + 1) ≤
                unpickedCount reg (p ++ [name]) * (maxDeps reg + 1) :=
              Nat.mul_le_mul_right _ hm1
            have hb' : pickBound reg rest p1 ≤ n := by
              unfold pickBound at hb ⊢
              simp only [List.length_cons] at hb
              omega
            obtain ⟨u, hu1, hu2, hu3⟩ := ih rest p1 e hb' h2
            exact ⟨u, hu1, hu2, hu3.imp (List.mem_cons_of_mem _) id⟩

/-- Trichotomy for two decompositions of a list around a middle element. -/
theorem split_middle_cases {α : Type} (l1 l2 a b : List α) (x y : α)
    (h : l1 ++ x :: l2 = a ++ y :: b) :
    (∃ a2, a = l1 ++ x :: a2 ∧ l2 = a2 ++ y :: b) ∨
    (a = l1 ∧ x = y ∧ l2 = b) ∨
    (∃ c2, l1 = a ++ y :: c2 ∧ b = c2 ++ x :: l2) := by
  rcases List.append_eq_append_iff.mp h with ⟨a2, ha, hb⟩ | ⟨c2, hc, hd⟩
  · cases a2 with
    | nil =>
      simp only [List.append_nil] at ha
      simp only [List.nil_append, List.cons.injEq] at hb
      exact Or.inr (Or.inl ⟨ha, hb.1, hb.2⟩)
    | cons z a3 =>
      simp only [List.cons_append, List.cons.injEq] at hb
      obtain ⟨hxz, hl2⟩ := hb
      subst hxz
      exact Or.inl ⟨a3, by rw [ha], hl2⟩
  · cases c2 with
    | nil =>
      simp only [List.append_nil] at hc
      simp only [List.nil_append, List.cons.injEq] at hd
      exact Or.inr (Or.inl ⟨hc.symm, hd.1.symm, hd.2.symm⟩)
    | cons z c3 =>
      simp only [List.cons_append, List.cons.injEq] at hd
      obtain ⟨hyz, hbb⟩ := hd
      subst hyz
      exact Or.inr (Or.inr ⟨c3, by rw [hc], hbb⟩)

/-- Every emitted target is reachable, along dependency edges, from some
name of the worklist. -/
theorem pick_reach (reg : Registry) :
    ∀ (n : Nat) (W p : List String) (l : List Target) (p' : List String),
      pickManyFuel reg n W p = Except.ok (l, p') →
      ∀ t, t ∈ l →
        ∃ w, w ∈ W ∧ Relation.ReflTransGen (depEdge reg) w t.name := by
  intro n
  induction n with
  | zero => intro W p l p' h; simp [pickManyFuel] at h
  | succ n ih =>
    intro W p l p' h
    cases W with
    | nil =>
      simp only [pickManyFuel, Except.ok.injEq, Prod.mk.injEq] at h
      obtain ⟨h1, h2⟩ := h
      intro t ht
      rw [← h1] at ht
      simp at ht
    | cons name rest =>
      obtain ⟨t, hlook, hcase⟩ := pick_ok_inv reg n name rest p l p' h
      rcases hcase with ⟨hp, hrest⟩ | ⟨hp, l1, p1, l2, h1, h2, hl⟩
      · intro u hu
        obtain ⟨w, hw, hr⟩ := ih rest p l p' hrest u hu
        exact ⟨w, List.mem_cons_of_mem _ hw, hr⟩
      · subst hl
        have hname : t.name = name := lookupTarget_name reg name t hlook
        intro u hu
        rcases List.mem_append.mp hu with hu1 | hu2
        · obtain ⟨w, hw, hr⟩ := ih t.depends (p ++ [name]) l1 p1 h1 u hu1
          have hedge : depEdge reg name w := ⟨t, hlook, hw⟩
          exact ⟨name, List.mem_cons_self _ _,
            Relation.ReflTransGen.head hedge hr⟩
        · rcases List.mem_cons.mp hu2 with rfl | hu3
          · refine ⟨name, List.mem_cons_self _ _, ?_⟩
            rw [hname]
          · obtain ⟨w, hw, hr⟩ := ih rest p1 l2 p' h2 u hu3
            exact ⟨w, List.mem_cons_of_mem _ hw, hr⟩

/-- Ordering invariant of the resolver: a dependency of an emitted target
was already picked on entry, or was emitted earlier, or lies on a
dependency path back to the target (which only happens inside a cycle). -/
theorem pick_ordered (reg : Registry) :
    ∀ (n : Nat) (W p : List String) (l : List Target) (p' : List String),
      pickManyFuel reg n W p = Except.ok (l, p') →
      ∀ (a : List Target) (t : Target) (b : List Target),
        l = a ++ t :: b → ∀ d, d ∈ t.depends →
        d ∈ p ∨ d ∈ a.map Target.name ∨
          Relation.ReflTransGen (depEdge reg) d t.name := by
  intro n
  induction n with
  | zero => intro W p l p' h; simp [pickManyFuel] at h
  | succ n ih =>
    intro W p l p' h
    cases W with
    | nil =>
      simp only [pickManyFuel, Except.ok.injEq, Prod.mk.injEq] at h
      obtain ⟨h1, h2⟩ := h
      intro a t b hsplit
      rw [← h1] at hsplit
      exact absurd hsplit.symm (by simp)
    | cons name rest =>
      obtain ⟨t0, hlook, hcase⟩ := pick_ok_inv reg n name rest p l p' h
      rcases hcase with ⟨hp, hrest⟩ | ⟨hp, l1, p1, l2, h1, h2, hl⟩
      · exact ih rest p l p' hrest
      · subst hl
        have hname : t0.name = name := lookupTarget_name reg name t0 hlook
        intro a t b hsplit d hd
        rcases split_middle_cases l1 l2 a b t0 t hsplit with
          ⟨a2, ha, hl2⟩ | ⟨ha, hxy, hl2⟩ | ⟨c2, hl1, hb⟩
        · have hres := ih rest p1 l2 p' h2 a2 t b hl2 d hd
          rcases hres with hin | hin | hin
          · have hperm := pick_perm reg n t0.depends (p ++ [name]) l1 p1 h1
            have hd1 : d ∈ (p ++ [name]) ++ l1.map Target.name :=
              hperm.subset hin
            rcases List.mem_append.mp hd1 with hd2 | hd2
            · rcases List.mem_append.mp hd2 with hd3 | hd3
              · exact Or.inl hd3
              · have hdn : d = name := by simpa using hd3
                refine Or.inr (Or.inl ?_)
                rw [ha, hdn, ← hname]
                simp
            · refine Or.inr (Or.inl ?_)
              rw [ha]
              simp only [List.map_append, List.map_cons, List.mem_append,
                List.mem_cons]
              exact Or.inl hd2
          · refine Or.inr (Or.inl ?_)
            rw [ha]
            simp only [List.map_append, List.map_cons, List.mem_append,
              List.mem_cons]
            exact Or.inr (Or.inr hin)
          · exact Or.inr (Or.inr hin)
        · subst hxy
          have hp1 : d ∈ p1 :=
            pick_worklist_picked reg n t0.depends (p ++ [name]) l1 p1 h1 d hd
          have hperm := pick_perm reg n t0.depends (p ++ [name]) l1 p1 h1
          have hd1 : d ∈ (p ++ [name]) ++ l1.map Target.name :=
            hperm.subset hp1
          rcases List.mem_append.mp hd1 with hd2 | hd2
          · rcases List.mem_append.mp hd2 with hd3 | hd3
            · exact Or.inl hd3
            · have hdn : d = name := by simpa using hd3
              refine Or.inr (Or.inr ?_)
              rw [hdn, ← hname]
          · refine Or.inr (Or.inl ?_)
            rw [ha]
            exact hd2
        · have hres := ih t0.depends (p ++ [name]) l1 p1 h1 a t c2 hl1 d hd
          rcases hres with hin | hin | hin
          · rcases List.mem_append.mp hin with hd2 | hd2
            · exact Or.inl hd2
            · have hdn : d = name := by simpa using hd2
              have hmem_t : t ∈ l1 := by rw [hl1]; simp
              obtain ⟨w, hw, hr⟩ :=
                pick_reach reg n t0.depends (p ++ [name]) l1 p1 h1 t hmem_t
              have hedge : depEdge reg name w := ⟨t0, hlook, hw⟩
              refine Or.inr (Or.inr ?_)
              rw [hdn]
              exact Relation.ReflTransGen.head hedge hr
          · exact Or.inr (Or.inl hin)
          · exact Or.inr (Or.inr hin)
/-- Unfolding a successful `evaluateResolve` to the underlying pick run. -/
theorem evaluateResolve_ok_inv (reg : Registry) (names : List String)
    (l : List Target) (h : evaluateResolve reg names = Except.ok l) :
    ∃ p', pickManyFuel reg (pickBound reg (selectedRoots reg names) [])
        (selectedRoots reg names) [] = Except.ok (l, p') := by
  unfold evaluateResolve at h
  split at h
  · simp at h
  · next l0 p' heq =>
    simp only [Except.ok.injEq] at h
    subst h
    exact ⟨p', heq⟩

/-- Unfolding a failing `evaluateResolve` to the underlying pick run. -/
theorem evaluateResolve_error_inv (reg : Registry) (names : List String)
    (e : String) (h : evaluateResolve reg names = Except.error e) :
    pickManyFuel reg (pickBound reg (selectedRoots reg names) [])
      (selectedRoots reg names) [] = Except.error e := by
  unfold evaluateResolve at h
  split at h
  · next e0 heq =>
    simp only [Except.error.injEq] at h
    subst h
    exact heq
  · simp at h

/-- The names of a successful resolution are duplicate-free. -/
theorem evaluateResolve_nodup (reg : Registry) (names : List String)
    (l : List Target) (h : evaluateResolve reg names = Except.ok l) :
    (l.map Target.name).Nodup := by
  obtain ⟨p', hp⟩ := evaluateResolve_ok_inv reg names l h
  have h1 := pick_nodup reg _ _ _ _ _ hp List.nodup_nil
  have h2 := pick_perm reg _ _ _ _ _ hp
  have h3 := h2.nodup h1
  simpa using h3

/-- Every target of a successful resolution is the registry entry stored
under its name. -/
theorem evaluateResolve_registered (reg : Registry) (names : List String)
    (l : List Target) (h : evaluateResolve reg names = Except.ok l) :
    ∀ t, t ∈ l → lookupTarget reg t.name = some t := by
  obtain ⟨p', hp⟩ := evaluateResolve_ok_inv reg names l h
  exact pick_registered reg _ _ _ _ _ hp

/-- A successful resolution is closed under `depends`. -/
theorem evaluateResolve_closed (reg : Registry) (names : List String)
    (l : List Target) (h : evaluateResolve reg names = Except.ok l) :
    ∀ t, t ∈ l → ∀ d, d ∈ t.depends → d ∈ l.map Target.name := by
  obtain ⟨p', hp⟩ := evaluateResolve_ok_inv reg names l h
  intro t ht d hd
  have h1 := pick_deps_picked reg _ _ _ _ _ hp t ht d hd
  have h2 := pick_perm reg _ _ _ _ _ hp
  have h3 := h2.subset h1
  simpa using h3

/-- Every selected root of a successful resolution is resolved. -/
theorem evaluateResolve_roots_mem (reg : Registry) (names : List String)
    (l : List Target) (h : evaluateResolve reg names = Except.ok l) :
    ∀ w, w ∈ selectedRoots reg names → w ∈ l.map Target.name := by
  obtain ⟨p', hp⟩ := evaluateResolve_ok_inv reg names l h
  intro w hw
  have h1 := pick_worklist_picked reg _ _ _ _ _ hp w hw
  have h2 := pick_perm reg _ _ _ _ _ hp
  have h3 := h2.subset h1
  simpa using h3

/-- Every name reachable along dependency edges from a selected root is
resolved by a successful resolution. -/
theorem evaluateResolve_reach_mem (reg : Registry) (names : List String)
    (l : List Target) (h : evaluateResolve reg names = Except.ok l)
    (w : String) (hw : w ∈ selectedRoots reg names) :
    ∀ d, Relation.ReflTransGen (depEdge reg) w d → d ∈ l.map Target.name := by
  intro d hreach
  induction hreach with
  | refl => exact evaluateResolve_roots_mem reg names l h w hw
  | tail hstep hedge ih =>
    next b c =>
      obtain ⟨u, hu, huname⟩ := List.mem_map.mp ih
      obtain ⟨tt, hlookb, hc⟩ := hedge
      rw [← huname] at hlookb
      have hlooku := evaluateResolve_registered reg names l h u hu
      rw [hlooku] at hlookb
      simp only [Option.some.injEq] at hlookb
      subst hlookb
      exact evaluateResolve_closed reg names l h u hu c hc

/-- Locate the prefix and suffix around an indexed element. -/
theorem getElem?_split {α : Type} :
    ∀ (l : List α) (i : Nat) (t : α), l[i]? = some t →
      ∃ a b, l = a ++ t :: b ∧ a.length = i := by
  intro l
  induction l with
  | nil => intro i t h; simp at h
  | cons x xs ih =>
    intro i t h
    cases i with
    | zero =>
      simp only [List.getElem?_cons_zero, Option.some.injEq] at h
      subst h
      exact ⟨[], xs, rfl, rfl⟩
    | succ j =>
      simp only [List.getElem?_cons_succ] at h
      obtain ⟨a, b, hab, hlen⟩ := ih j t h
      exact ⟨x :: a, b, by rw [hab]; rfl, by simp [hlen]⟩

/-- A list member sits at some index below the length. -/
theorem mem_getElem_of_mem {α : Type} :
    ∀ (a : List α) (x : α), x ∈ a → ∃ j, j < a.length ∧ a[j]? = some x := by
  intro a
  induction a with
  | nil => intro x h; simp at h
  | cons y ys ih =>
    intro x h
    rcases List.mem_cons.mp h with rfl | h2
    · exact ⟨0, by simp, by simp⟩
    · obtain ⟨j, hj, hx⟩ := ih x h2
      exact ⟨j + 1, by simpa using hj, by simpa using hx⟩

/-- Indexing below the length of the left part of an append. -/
theorem getElem?_append_of_lt {α : Type} :
    ∀ (a c : List α) (j : Nat), j < a.length → (a ++ c)[j]? = a[j]? := by
  intro a
  induction a with
  | nil => intro c j h; simp at h
  | cons y ys ih =>
    intro c j h
    cases j with
    | zero => simp
    | succ k =>
      simp only [List.cons_append, List.getElem?_cons_succ]
      exact ih c k (by simpa using h)

/-- For an acyclic registry, a successful resolution lists every registered
dependency strictly before its dependent. -/
theorem evaluateResolve_depOrdered (reg : Registry) (names : List String)
    (l : List Target) (hacyc : Acyclic reg)
    (h : evaluateResolve reg names = Except.ok l) : DepOrdered reg l := by
  obtain ⟨p', hp⟩ := evaluateResolve_ok_inv reg names l h
  intro i t hidx d hd dt hdt
  obtain ⟨a, b, hab, hlen⟩ := getElem?_split l i t hidx
  have hord := pick_ordered reg _ _ _ _ _ hp a t b hab d hd
  rcases hord with hin | hin | hin
  · simp at hin
  · obtain ⟨u, hu, huname⟩ := List.mem_map.mp hin
    have humem : u ∈ l := by
      rw [hab]
      exact List.mem_append_left _ hu
    have hlooku := evaluateResolve_registered reg names l h u humem
    rw [huname] at hlooku
    rw [hlooku] at hdt
    simp only [Option.some.injEq] at hdt
    subst hdt
    obtain ⟨j, hj, hju⟩ := mem_getElem_of_mem a u hu
    refine ⟨j, by omega, ?_⟩
    rw [hab]
    rw [getElem?_append_of_lt a (t :: b) j hj]
    exact hju
  · have htmem : t ∈ l := by
      rw [hab]
      simp
    have hlookt := evaluateResolve_registered reg names l h t htmem
    have hedge : depEdge reg t.name d := ⟨t, hlookt, hd⟩
    exact absurd (Relation.TransGen.head' hedge hin) (hacyc t.name)

/-- A single chain link never touches the registry. -/
theorem runOne_reg (t : Target) (st : ExecState) :
    (runOne t st).2.2.reg = st.reg := by
  unfold runOne
  cases t.action <;> rfl

/-- A single chain link records the name of the target it ran. -/
theorem runOne_tname (t : Target) (st : ExecState) :
    (runOne t st).1.tname = t.name := by
  unfold runOne
  cases t.action <;> rfl

/-- A single chain link settles successfully exactly when the action
returns normally. -/
theorem runOne_res (t : Target) (st : ExecState) :
    (runOne t st).2.1 =
      match actionErr t.action with
      | none => RunResult.ok
      | some e => RunResult.err e := by
  unfold runOne actionErr
  cases t.action <;> rfl

/-- The task chain reads the registry but never writes it. -/
theorem runTargets_reg :
    ∀ (l : List Target) (st : ExecState),
      (runTargets l st).2.2.reg = st.reg := by
  intro l
  induction l with
  | nil => intro st; rfl
  | cons t ts ih =>
    intro st
    rcases hr : runOne t st with ⟨r, res, st1⟩
    have hreg : st1.reg = st.reg := by
      have h0 := runOne_reg t st
      rw [hr] at h0
      exact h0
    cases res with
    | ok =>
      rcases hrt : runTargets ts st1 with ⟨rs, res2, st2⟩
      have h1 := ih st1
      rw [hrt] at h1
      simp only [runTargets, hr, hrt]
      rw [h1, hreg]
    | err e =>
      simp only [runTargets, hr]
      exact hreg

/-- The executed-trace names form an initial segment of the resolved
names. -/
theorem runTargets_trace :
    ∀ (l : List Target) (st : ExecState),
      ∃ r, (runTargets l st).1.map ExecRecord.tname ++ r =
        l.map Target.name := by
  intro l
  induction l with
  | nil => intro st; exact ⟨[], rfl⟩
  | cons t ts ih =>
    intro st
    rcases hr : runOne t st with ⟨r, res, st1⟩
    have hn : r.tname = t.name := by
      have h0 := runOne_tname t st
      rw [hr] at h0
      exact h0
    cases res with
    | ok =>
      rcases hrt : runTargets ts st1 with ⟨rs, res2, st2⟩
      obtain ⟨rr, hrr⟩ := ih st1
      rw [hrt] at hrr
      refine ⟨rr, ?_⟩
      simp only [runTargets, hr, hrt, List.map_cons, List.cons_append, hn]
      simp only [List.map] at hrr
      rw [hrr]
    | err e =>
      refine ⟨ts.map Target.name, ?_⟩
      simp only [runTargets, hr, List.map_cons, List.cons_append, hn]
      simp

/-- Fail-fast shape of the chain: with all actions before index `k`
succeeding and the action at `k` failing, exactly the first `k + 1`
targets run and the chain settles with the failing action's own error. -/
theorem runTargets_fail :
    ∀ (l : List Target) (st : ExecState) (k : Nat) (tk : Target),
      l[k]? = some tk → tk.action ≠ ActionBehavior.ok →
      (∀ j, j < k → ∀ tj, l[j]? = some tj →
        tj.action = ActionBehavior.ok) →
      ∃ e, actionErr tk.action = some e ∧
        (runTargets l st).2.1 = RunResult.err e ∧
        (runTargets l st).1.map ExecRecord.tname =
          (l.take (k + 1)).map Target.name := by
  intro l
  induction l with
  | nil => intro st k tk hk; simp at hk
  | cons t ts ih =>
    intro st k tk hk hfail hpre
    cases k with
    | zero =>
      simp only [List.getElem?_cons_zero, Option.some.injEq] at hk
      subst hk
      rcases hr : runOne t st with ⟨r, res, st1⟩
      have hres := runOne_res t st
      rw [hr] at hres
      have hn : r.tname = t.name := by
        have h0 := runOne_tname t st
        rw [hr] at h0
        exact h0
      cases hact : actionErr t.action with
      | none =>
        exfalso
        apply hfail
        cases hta : t.action
        · rfl
        · rw [hta] at hact; simp [actionErr] at hact
        · rw [hta] at hact; simp [actionErr] at hact
      | some e =>
        rw [hact] at hres
        subst hres
        refine ⟨e, rfl, ?_, ?_⟩
        · simp [runTargets, hr]
        · simp [runTargets, hr, hn]
    | succ j =>
      simp only [List.getElem?_cons_succ] at hk
      have hta : t.action = ActionBehavior.ok :=
        hpre 0 (Nat.succ_pos j) t (by simp)
      rcases hr : runOne t st with ⟨r, res, st1⟩
      have hres := runOne_res t st
      rw [hr, hta] at hres
      simp only [actionErr] at hres
      subst hres
      have hn : r.tname = t.name := by
        have h0 := runOne_tname t st
        rw [hr] at h0
        exact h0
      have hpre' : ∀ i, i < j → ∀ tj, ts[i]? = some tj →
          tj.action = ActionBehavior.ok := by
        intro i hi tj htj
        exact hpre (i + 1) (by omega) tj (by simpa using htj)
      obtain ⟨e, he1, he2, he3⟩ := ih st1 j tk hk hfail hpre'
      rcases hrt : runTargets ts st1 with ⟨rs, res2, st2⟩
      rw [hrt] at he2 he3
      refine ⟨e, he1, ?_, ?_⟩
      · simp only [runTargets, hr, hrt]
        exact he2
      · simp only [runTargets, hr, hrt, List.take_succ_cons,
          List.map_cons, hn]
        simp only [List.map] at he3
        rw [he3]

/-- A registered key always resolves to some entry. -/
theorem lookupTarget_isSome_of_mem (reg : Registry) (x : String)
    (h : x ∈ reg.map Target.name) : lookupTarget reg x ≠ none := by
  obtain ⟨t, ht, htn⟩ := List.mem_map.mp h
  intro hnone
  unfold lookupTarget at hnone
  rw [List.find?_eq_none] at hnone
  exact hnone t ht (by simp [htn])

/-- Head step of a key lookup when the head matches. -/
theorem find?_name_cons_pos (t u : Target) (l : List Target)
    (h : (u.name == t.name) = true) :
    List.find? (fun v => v.name == t.name) (u :: l) = some u := by
  simp [List.find?, h]

/-- Head step of a key lookup when the head differs. -/
theorem find?_name_cons_neg (t u : Target) (l : List Target)
    (h : (u.name == t.name) = false) :
    List.find? (fun v => v.name == t.name) (u :: l) =
      List.find? (fun v => v.name == t.name) l := by
  simp [List.find?, h]

/-- Overwriting an existing key makes lookup return the new record. -/
theorem lookup_map_overwrite (t : Target) :
    ∀ (reg : Registry), reg.any (fun u => u.name == t.name) = true →
      List.find? (fun u => u.name == t.name)
        (reg.map (fun u => if u.name == t.name then t else u)) = some t := by
  intro reg
  induction reg with
  | nil => intro h; simp at h
  | cons u reg ih =>
    intro h
    by_cases hu : (u.name == t.name) = true
    · simp only [List.map_cons, if_pos hu]
      exact find?_name_cons_pos t t _ (by simp)
    · have hu' : (u.name == t.name) = false := by
        cases hx : (u.name == t.name)
        · rfl
        · exact absurd hx hu
      simp only [List.map_cons, if_neg hu]
      rw [find?_name_cons_neg t u _ hu']
      apply ih
      simp only [List.any_cons] at h
      rcases Bool.or_eq_true_iff.mp h with h1 | h1
      · exact absurd h1 hu
      · exact h1

/-- Appending a fresh key makes lookup return the new record. -/
theorem lookup_append_new (t : Target) :
    ∀ (reg : Registry), reg.any (fun u => u.name == t.name) = false →
      List.find? (fun u => u.name == t.name) (reg ++ [t]) = some t := by
  intro reg
  induction reg with
  | nil =>
    intro h
    rw [List.nil_append]
    exact find?_name_cons_pos t t _ (by simp)
  | cons u reg ih =>
    intro h
    simp only [List.any_cons, Bool.or_eq_false_iff] at h
    obtain ⟨h1, h2⟩ := h
    simp only [List.cons_append]
    rw [find?_name_cons_neg t u _ h1]
    exact ih h2

/-- A `setTarget` write is observed by a subsequent lookup of the same
key. -/
theorem setTarget_lookup (reg : Registry) (t : Target) :
    lookupTarget (setTarget reg t) t.name = some t := by
  unfold setTarget lookupTarget
  by_cases h : reg.any (fun u => u.name == t.name) = true
  · rw [if_pos h]
    exact lookup_map_overwrite t reg h
  · have h' : reg.any (fun u => u.name == t.name) = false := by
      cases hx : reg.any (fun u => u.name == t.name)
      · rfl
      · exact absurd hx h
    rw [if_neg h]
    exact lookup_append_new t reg h'

/-- The only dependency edge of `regW1` goes from `WB` to `WA`. -/
theorem regW1_edge (x y : String) (h : depEdge regW1 x y) :
    x = "WB" ∧ y = "WA" := by
  obtain ⟨t, hlook, hy⟩ := h
  by_cases h1 : x = "WA"
  · subst h1
    have he : lookupTarget regW1 "WA" = some tgtWA := rfl
    rw [he] at hlook
    simp only [Option.some.injEq] at hlook
    subst hlook
    simp [tgtWA, buildTarget, tspec] at hy
  · by_cases h2 : x = "WB"
    · subst h2
      have he : lookupTarget regW1 "WB" = some tgtWB := rfl
      rw [he] at hlook
      simp only [Option.some.injEq] at hlook
      subst hlook
      simp only [tgtWB, buildTarget, tspec, Option.getD_some] at hy
      rcases List.mem_singleton.mp hy with rfl
      exact ⟨rfl, rfl⟩
    · exfalso
      have hname := lookupTarget_name regW1 x t hlook
      have hmem := lookupTarget_mem regW1 x t hlook
      have hcases : t = tgtWA ∨ t = tgtWB := by
        have hr : regW1 = [tgtWA, tgtWB] := rfl
        rw [hr] at hmem
        simpa using hmem
      rcases hcases with rfl | rfl
      · exact h1 (hname.symm.trans rfl)
      · exact h2 (hname.symm.trans rfl)

/-- The registry `regW1` has an acyclic dependency graph. -/
theorem regW1_acyclic : Acyclic regW1 := by
  intro x hx
  have hall : ∀ a b, Relation.TransGen (depEdge regW1) a b →
      a = "WB" ∧ b = "WA" := by
    intro a b hab
    induction hab with
    | single h1 => exact regW1_edge _ _ h1
    | tail h1 h2 ih => exact ⟨ih.1, (regW1_edge _ _ h2).2⟩
  obtain ⟨h1, h2⟩ := hall x x hx
  rw [h1] at h2
  exact absurd h2 (by decide)

/-- Claim C1 (counterexample): on the cyclic registry `regC1` (`A` and `B`
depending on each other), `evaluate ["A"]` produces the resolution
`[B, A]`; `B` at index 0 lists the registered dependency `A`, which only
appears at index 1, so the claimed strict ordering fails as stated. -/
theorem C1_counterexample :
    evaluateResolve regC1 ["A"] = Except.ok [tgtB1, tgtA1] ∧
      ¬ DepOrdered regC1 [tgtB1, tgtA1] := by
  refine ⟨rfl, ?_⟩
  intro h
  obtain ⟨j, hj, _⟩ := h 0 tgtB1 rfl "A" (by decide) tgtA1 rfl
  omega

/-- Claim C1 (amended): provided the registry's dependency graph is
acyclic, every resolution result of `evaluate` is dependency ordered: for
every target `T` in the result and registered name `D` in `T.depends`,
the target registered under `D` appears at a strictly smaller index. -/
theorem C1_dependency_ordering (reg : Registry) (names : List String)
    (l : List Target) (hacyc : Acyclic reg)
    (h : evaluateResolve reg names = Except.ok l) : DepOrdered reg l :=
  evaluateResolve_depOrdered reg names l hacyc h

/-- Claim C1 (witness): the amended ordering theorem applied to the
concrete acyclic registry `regW1` with requested root `WB`. -/
theorem C1_dependency_ordering_witness :
    DepOrdered regW1 [tgtWA, tgtWB] :=
  C1_dependency_ordering regW1 ["WB"] [tgtWA, tgtWB] regW1_acyclic rfl

/-- Claim C2 (counterexample): with only `C2A` registered, `evaluate`
of the unknown root name `X` resolves successfully with an empty
resolution and no executed action, instead of rejecting with an error
naming `X`. -/
theorem C2_counterexample :
    evaluateResolve regC2 ["X"] = Except.ok [] ∧
      evaluateFull regC2 ["X"] ["d"] =
        ([], RunResult.ok, ⟨regC2, ["d"]⟩) :=
  ⟨rfl, rfl⟩

/-- Claim C2 (amended): unknown names among a non-empty `targetNames` are
silently ignored rather than rejected: the resolution outcome depends only
on which registered names occur in `targetNames`, so two non-empty request
lists agreeing on the registered names they contain resolve identically. -/
theorem C2_unknown_roots_ignored (reg : Registry)
    (names names' : List String) (h1 : names ≠ []) (h2 : names' ≠ [])
    (hsame : ∀ k, k ∈ reg.map Target.name → (k ∈ names ↔ k ∈ names')) :
    evaluateResolve reg names = evaluateResolve reg names' := by
  have hsel : selectedRoots reg names = selectedRoots reg names' := by
    unfold selectedRoots
    apply List.filter_congr
    intro k hk
    have hiff := hsame k hk
    have he1 : names.isEmpty = false := by
      cases names with
      | nil => exact absurd rfl h1
      | cons a as => rfl
    have he2 : names'.isEmpty = false := by
      cases names' with
      | nil => exact absurd rfl h2
      | cons a as => rfl
    rw [he1, he2]
    by_cases hm : k ∈ names
    · simp [List.elem_iff, hm, hiff.mp hm]
    · have hm' : k ∉ names' := fun hx => hm (hiff.mpr hx)
      simp [List.elem_iff, hm, hm']
  unfold evaluateResolve
  rw [hsel]

/-- Claim C2 (witness): the amended theorem applied to `regW2`, where the
request `["X", "W2A"]` with unknown `X` resolves exactly like
`["W2A"]`. -/
theorem C2_unknown_roots_ignored_witness :
    evaluateResolve regW2 ["X", "W2A"] = evaluateResolve regW2 ["W2A"] :=
  C2_unknown_roots_ignored regW2 ["X", "W2A"] ["W2A"] (by simp) (by simp)
    (by decide)

/-- Claim C3 (code bug): a target with `target_path` set whose action
throws synchronously runs with the working directory correctly switched to
the resolved path, but the directory is never restored: the synchronous
throw escapes before the restoring handlers are attached, so `evaluate`
rejects with the action's error while the working directory stays at the
switched path. -/
theorem C3_sync_throw_skips_restore :
    evaluateFull regC3 ["T"] ["root"] =
      ([⟨"T", ["root", "sub"]⟩], RunResult.err "boom",
        ⟨regC3, ["root", "sub"]⟩) := rfl

/-- Claim C4: inside one `evaluate` call, if every action before index `k`
of the execution order succeeds and the action at index `k` fails (by
synchronous throw or rejection), then exactly the first `k + 1` targets
run — the later ones are never invoked — and the call settles with that
action's own error, unwrapped. -/
theorem C4_fail_fast (reg : Registry) (names : List String)
    (l : List Target) (cwd : List String) (k : Nat) (tk : Target)
    (hres : evaluateResolve reg names = Except.ok l)
    (hk : l[k]? = some tk)
    (hfail : tk.action ≠ ActionBehavior.ok)
    (hpre : ∀ j, j < k → ∀ tj, l[j]? = some tj →
      tj.action = ActionBehavior.ok) :
    ∃ e, actionErr tk.action = some e ∧
      (evaluateFull reg names cwd).2.1 = RunResult.err e ∧
      (evaluateFull reg names cwd).1.map ExecRecord.tname =
        (l.take (k + 1)).map Target.name := by
  unfold evaluateFull
  rw [hres]
  exact runTargets_fail l ⟨reg, cwd⟩ k tk hk hfail hpre

/-- Claim C4 (witness): fail-fast on `regW4`, whose first resolved target
`W4A` rejects with `bang`; only `W4A` runs and `evaluate` reports
`bang`. -/
theorem C4_fail_fast_witness :
    ∃ e, actionErr tgtW4A.action = some e ∧
      (evaluateFull regW4 [] ["d"]).2.1 = RunResult.err e ∧
      (evaluateFull regW4 [] ["d"]).1.map ExecRecord.tname =
        (([tgtW4A, tgtW4B]).take (0 + 1)).map Target.name :=
  C4_fail_fast regW4 [] [tgtW4A, tgtW4B] ["d"] 0 tgtW4A rfl rfl
    (by decide) (by intro j hj tj htj; omega)

/-- Claim C5: in every successful resolution the target names are
duplicate-free (each registered target appears at most once); every name
reachable from a selected root — in particular a dependency shared by two
roots — appears exactly once; and consequently the executed trace invokes
each target's action at most once. -/
theorem C5_dedup (reg : Registry) (names : List String)
    (l : List Target) (cwd : List String)
    (h : evaluateResolve reg names = Except.ok l) :
    (l.map Target.name).Nodup ∧
    (∀ w, w ∈ selectedRoots reg names →
      ∀ d, Relation.ReflTransGen (depEdge reg) w d →
        (l.map Target.name).count d = 1) ∧
    ((evaluateFull reg names cwd).1.map ExecRecord.tname).Nodup := by
  have hnd := evaluateResolve_nodup reg names l h
  refine ⟨hnd, ?_, ?_⟩
  · intro w hw d hd
    have hmem := evaluateResolve_reach_mem reg names l h w hw d hd
    exact List.count_eq_one_of_mem hnd hmem
  · unfold evaluateFull
    rw [h]
    obtain ⟨r, hr⟩ := runTargets_trace l ⟨reg, cwd⟩
    rw [← hr] at hnd
    exact hnd.of_append_left

/-- Claim C5 (witness): on `regW5` the roots `W5A` and `W5B` share the
dependency `W5C`; the resolution `[W5C, W5A, W5B]` lists it once and the
trace is duplicate-free. -/
theorem C5_dedup_witness :
    (([tgtW5C, tgtW5A, tgtW5B]).map Target.name).Nodup ∧
    (∀ w, w ∈ selectedRoots regW5 ["W5A", "W5B"] →
      ∀ d, Relation.ReflTransGen (depEdge regW5) w d →
        (([tgtW5C, tgtW5A, tgtW5B]).map Target.name).count d = 1) ∧
    ((evaluateFull regW5 ["W5A", "W5B"] ["d"]).1.map
      ExecRecord.tname).Nodup :=
  C5_dedup regW5 ["W5A", "W5B"] [tgtW5C, tgtW5A, tgtW5B] ["d"] rfl

/-- Claim C6: whenever a registered target reachable from the selected
roots lists a dependency name absent from the registry, `evaluate` rejects
with the unknown-target error naming an unregistered name, no action is
executed, the state is untouched, and no partial resolution list
survives. -/
theorem C6_unknown_dependency (reg : Registry) (names : List String)
    (cwd : List String) (w y d : String) (t : Target)
    (hw : w ∈ selectedRoots reg names)
    (hreach : Relation.ReflTransGen (depEdge reg) w y)
    (hy : lookupTarget reg y = some t) (hd : d ∈ t.depends)
    (hunk : lookupTarget reg d = none) :
    ∃ u, lookupTarget reg u = none ∧
      evaluateResolve reg names = Except.error (unknownMsg u) ∧
      evaluateFull reg names cwd =
        ([], RunResult.err (unknownMsg u), ⟨reg, cwd⟩) := by
  cases hres : evaluateResolve reg names with
  | ok l =>
    exfalso
    have hreach2 : Relation.ReflTransGen (depEdge reg) w d :=
      Relation.ReflTransGen.tail hreach ⟨t, hy, hd⟩
    have hmem := evaluateResolve_reach_mem reg names l hres w hw d hreach2
    obtain ⟨u, hu, huname⟩ := List.mem_map.mp hmem
    have hlook := evaluateResolve_registered reg names l hres u hu
    rw [huname] at hlook
    rw [hlook] at hunk
    simp at hunk
  | error e =>
    have hpick := evaluateResolve_error_inv reg names e hres
    obtain ⟨u, hu1, hu2, _⟩ :=
      pick_error_unknown reg _ _ _ e (le_refl _) hpick
    subst hu2
    refine ⟨u, hu1, rfl, ?_⟩
    unfold evaluateFull
    rw [hres]

/-- Claim C6 (witness): `regW6`'s only target `W6A` depends on the
unregistered `W6X`; `evaluate ["W6A"]` rejects with the error naming an
unknown name and runs nothing. -/
theorem C6_unknown_dependency_witness :
    ∃ u, lookupTarget regW6 u = none ∧
      evaluateResolve regW6 ["W6A"] = Except.error (unknownMsg u) ∧
      evaluateFull regW6 ["W6A"] ["d"] =
        ([], RunResult.err (unknownMsg u), ⟨regW6, ["d"]⟩) :=
  C6_unknown_dependency regW6 ["W6A"] ["d"] "W6A" "W6A" "W6X"
    (buildTarget (tspec "W6A" ["W6X"])) (by decide)
    Relation.ReflTransGen.refl rfl (by decide) rfl

/-- Claim C7 (counterexample): on the cyclic registry `regC7`,
`evaluate []` resolves all registered targets as `[Q, P]`, but `Q` at
index 0 lists the registered dependency `P`, which only appears at
index 1 — the dependency-precedes-dependent part of the claim fails. -/
theorem C7_counterexample :
    evaluateResolve regC7 [] = Except.ok [tgtQ7, tgtP7] ∧
      ¬ DepOrdered regC7 [tgtQ7, tgtP7] := by
  refine ⟨rfl, ?_⟩
  intro h
  obtain ⟨j, hj, _⟩ := h 0 tgtQ7 rfl "P" (by decide) tgtP7 rfl
  omega

/-- Claim C7 (amended): when every dependency of a registered target is
itself registered, `evaluate []` (and an absent argument behaves the same)
resolves successfully with exactly the set of all registered targets, each
once; and if the dependency graph is also acyclic, every registered
dependency precedes its dependents. -/
theorem C7_empty_runs_all (reg : Registry)
    (hnodup : (reg.map Target.name).Nodup)
    (hclosed : ∀ t, t ∈ reg → ∀ d, d ∈ t.depends →
      lookupTarget reg d ≠ none) :
    ∃ l, evaluateResolve reg [] = Except.ok l ∧
      (l.map Target.name).Perm (reg.map Target.name) ∧
      (Acyclic reg → DepOrdered reg l) := by
  cases hres : evaluateResolve reg [] with
  | error e =>
    exfalso
    have hpick := evaluateResolve_error_inv reg [] e hres
    obtain ⟨u, hu1, _, hu3⟩ :=
      pick_error_unknown reg _ _ _ e (le_refl _) hpick
    rcases hu3 with hu4 | ⟨t, ht, hdep⟩
    · have hkey : u ∈ reg.map Target.name := by
        unfold selectedRoots at hu4
        simpa using (List.mem_filter.mp hu4).1
      exact lookupTarget_isSome_of_mem reg u hkey hu1
    · exact hclosed t ht u hdep hu1
  | ok l =>
    refine ⟨l, rfl, ?_,
      fun hacyc => evaluateResolve_depOrdered reg [] l hacyc hres⟩
    have hnd := evaluateResolve_nodup reg [] l hres
    have hsub1 : l.map Target.name ⊆ reg.map Target.name := by
      intro x hx
      obtain ⟨u, hu, hun⟩ := List.mem_map.mp hx
      have hlook := evaluateResolve_registered reg [] l hres u hu
      have hm := lookupTarget_mem reg u.name u hlook
      exact hun ▸ List.mem_map_of_mem Target.name hm
    have hsub2 : reg.map Target.name ⊆ l.map Target.name := by
      intro x hx
      apply evaluateResolve_roots_mem reg [] l hres
      unfold selectedRoots
      simpa using hx
    exact (hnd.subperm hsub1).antisymm (hnodup.subperm hsub2)

/-- Claim C7 (witness): the amended theorem applied to `regW7`, whose two
targets are closed and acyclic. -/
theorem C7_empty_runs_all_witness :
    ∃ l, evaluateResolve regW7 [] = Except.ok l ∧
      (l.map Target.name).Perm (regW7.map Target.name) ∧
      (Acyclic regW7 → DepOrdered regW7 l) :=
  C7_empty_runs_all regW7 (by decide) (by decide)

/-- Claim C8 (counterexample): in `regC8` (declared `C8A`, `C8B`, `C8D`,
with `C8B` depending on `C8D`), the request `["C8B", "C8A"]` resolves to
`[C8A, C8D, C8B]`: although `C8B` is requested first, `C8A` is visited and
placed first, so the resolver does not scan the requested names left to
right — a left-to-right scan of the request would have placed `C8B` (and
its dependency) before `C8A`. -/
theorem C8_counterexample :
    evaluateResolve regC8 ["C8B", "C8A"] =
      Except.ok [tgtA8, tgtD8, tgtB8] ∧
      ¬ (([tgtA8, tgtD8, tgtB8].map Target.name).indexOf "C8B" <
          ([tgtA8, tgtD8, tgtB8].map Target.name).indexOf "C8A") :=
  ⟨rfl, by decide⟩

/-- Claim C8 (amended): the resolver iterates the registry keys in
declaration order, keeping those that occur in the requested names, so the
order of the requested names is irrelevant: permuting `rootNames` leaves
the resolution unchanged, and a shared dependency's position is fixed by
registry declaration order. -/
theorem C8_registry_order (reg : Registry) (names names' : List String)
    (hperm : names.Perm names') :
    evaluateResolve reg names = evaluateResolve reg names' := by
  have hsel : selectedRoots reg names = selectedRoots reg names' := by
    unfold selectedRoots
    apply List.filter_congr
    intro k hk
    have hmem : (names.contains k) = (names'.contains k) := by
      by_cases hm : k ∈ names
      · simp [List.elem_iff, hm, hperm.mem_iff.mp hm]
      · have hm' : k ∉ names' := fun hx => hm (hperm.mem_iff.mpr hx)
        simp [List.elem_iff, hm, hm']
    have hemp : names.isEmpty = names'.isEmpty := by
      have hlen := hperm.length_eq
      cases names with
      | nil =>
        cases names' with
        | nil => rfl
        | cons b bs => simp at hlen
      | cons a as =>
        cases names' with
        | nil => simp at hlen
        | cons b bs => rfl
    rw [hemp, hmem]
  unfold evaluateResolve
  rw [hsel]

/-- Claim C8 (witness): the amended theorem applied to `regW8`: the
requests `["W8B", "W8A"]` and `["W8A", "W8B"]` resolve identically. -/
theorem C8_registry_order_witness :
    evaluateResolve regW8 ["W8B", "W8A"] =
      evaluateResolve regW8 ["W8A", "W8B"] :=
  C8_registry_order regW8 ["W8B", "W8A"] ["W8A", "W8B"]
    (List.Perm.swap "W8A" "W8B" [])

/-- Claim C9: registering twice under the same name leaves the registry
mapping that name to exactly the record built from the second call's
arguments (with its destructuring defaults applied) — the earlier entry is
fully overwritten, nothing is merged — and the call also returns that
record; `target` is total, so registration never fails. -/
theorem C9_last_write_wins (reg : Registry) (s1 s2 : TargetSpec)
    (_hsame : s1.name = s2.name) :
    lookupTarget (target (target reg s1).1 s2).1 s2.name =
      some (buildTarget s2) ∧
    (target (target reg s1).1 s2).2 = buildTarget s2 :=
  ⟨setTarget_lookup (target reg s1).1 (buildTarget s2), rfl⟩

/-- Claim C9 (witness): overwriting the registration of `R` (first with a
dependency, then without) leaves the registry mapping `R` to the second
record. -/
theorem C9_last_write_wins_witness :
    lookupTarget (target (target [] (tspec "R" ["x"])).1
        (tspec "R" [])).1 "R" = some (buildTarget (tspec "R" [])) ∧
    (target (target [] (tspec "R" ["x"])).1 (tspec "R" [])).2 =
      buildTarget (tspec "R" []) :=
  C9_last_write_wins [] (tspec "R" ["x"]) (tspec "R" []) rfl

/-- Claim C10: an `evaluate` call, whether it resolves or rejects, leaves
the registry exactly as it was — same names, same declaration order, same
records: resolution and execution only read it. -/
theorem C10_registry_unchanged (reg : Registry) (names : List String)
    (cwd : List String) :
    (evaluateFull reg names cwd).2.2.reg = reg := by
  unfold evaluateFull
  split
  · rfl
  · next l heq => exact runTargets_reg l ⟨reg, cwd⟩

/-- During an action the working directory is `target_path` resolved
against the pre-switch directory (or the unchanged directory when
`target_path` is absent). -/
theorem runOne_cwdDuring (t : Target) (st : ExecState) :
    (runOne t st).1.cwdDuring =
      match t.options.target_path with
      | some p => chdirResolve st.cwd p
      | none => st.cwd := by
  unfold runOne
  cases t.action <;> rfl

/-- Whenever the action settles through the promise handlers — normal
return or rejection, but not a synchronous throw — the working directory
is restored to its pre-switch value. -/
theorem runOne_restores (t : Target) (st : ExecState)
    (h : ∀ e, t.action ≠ ActionBehavior.throwSync e) :
    (runOne t st).2.2.cwd = st.cwd := by
  unfold runOne
  cases ha : t.action with
  | ok => rfl
  | throwSync e => exact absurd ha (h e)
  | rejectAsync e => rfl


end JonMake
